import Mathlib

/-!
# Verification of the AirBnBeautiful semantic search engine (`backend/nlp_service.py`)

This file is a shallow embedding, in Lean 4, of the query-understanding and
hybrid-ranking engine of the repository:

* text normalisation (`norm_txt`, `content_tokens`),
* the amenity canonicaliser built by `build_amenity_clusters`,
* the similarity + margin entity extractors (`canonical_amenities_from_query`,
  `neighborhoods_groups_from_query`, `type_from_query_by_centroid`),
* the filter engine (`apply_filters_ml`, `amenities_family_satisfied`),
* the hybrid ranker (`lexical_similarities`, `rerank_semantic_with_lex`).

Modelling conventions:

* Python floats are modelled as `Option ℚ`: `none` plays the role of IEEE `NaN`
  (pandas propagates `NaN` through arithmetic, skips it in `min`/`max`, and
  `fillna` replaces it).  All finite float arithmetic is exact rational
  arithmetic.
* External collaborators (the sentence-transformer encoder, spaCy noun-phrase
  chunking, k-means cluster assignment, the TF-IDF matrix product) are inputs:
  a query phrase arrives together with its vector of cosine similarities, the
  cluster assignment is an arbitrary function `String → ℕ`, the raw corpus-wide
  TF-IDF similarity vector is a `List ℚ`.  Everything computed *from* those
  values in `nlp_service.py` is embedded faithfully.
* Strings are modelled for the ASCII fragment: on ASCII input,
  `unicodedata.normalize('NFD', s)` is the identity and no character has
  category `Mn`, so Python's `strip_accents` is the identity; `str.lower` is
  per-character ASCII lowering; Python string comparison is code-point
  lexicographic comparison, i.e. comparison of `String.data : List Char`.
-/

/-! ## Text normaliser (`strip_accents`, `norm_txt`, `content_tokens`) -/

/-- `strip_accents` of `nlp_service.py`, restricted to the ASCII fragment where
`unicodedata.normalize('NFD', s)` is the identity and no character has unicode
category `Mn`, hence the function is the identity. -/
def strip_accents (s : String) : String := s

/-- The characters matched by Python's `\s` and stripped by `str.strip()`
(ASCII fragment). -/
def isPySpace (c : Char) : Bool :=
  c = ' ' || c = '\t' || c = '\n' || c = '\r' || c = '\x0b' || c = '\x0c'

/-- Collapse each maximal run of whitespace into a single `' '`
(Python `re.sub(r'\s+', ' ', s)`). -/
def collapseWS : List Char → List Char
  | [] => []
  | [c] => [if isPySpace c then ' ' else c]
  | c1 :: c2 :: cs =>
    if isPySpace c1 && isPySpace c2 then collapseWS (c2 :: cs)
    else (if isPySpace c1 then ' ' else c1) :: collapseWS (c2 :: cs)

/-- Python `str.strip()`: drop leading and trailing whitespace. -/
def pyStrip (l : List Char) : List Char :=
  ((l.dropWhile isPySpace).reverse.dropWhile isPySpace).reverse

/-- `norm_txt` of `nlp_service.py`: strip accents (identity on ASCII),
lowercase, strip, collapse whitespace. -/
def norm_txt (s : String) : String :=
  ⟨collapseWS (pyStrip ((strip_accents s).data.map Char.toLower))⟩

/-- A character matched by the token regexes `[a-zA-Z0-9]` / `[a-z0-9]`
of `content_tokens` and of the neighbourhood lexical gate. -/
def isAlnumAscii (c : Char) : Bool :=
  ('a' ≤ c && c ≤ 'z') || ('A' ≤ c && c ≤ 'Z') || ('0' ≤ c && c ≤ '9')

/-- Split a character list into its maximal runs of characters satisfying `p`
(`re.findall(r"[a-zA-Z0-9]+", ...)`).  `acc` holds the current run, reversed. -/
def splitRuns (p : Char → Bool) : List Char → List Char → List String
  | [], acc => if acc.isEmpty then [] else [⟨acc.reverse⟩]
  | c :: cs, acc =>
    if p c then splitRuns p cs (c :: acc)
    else if acc.isEmpty then splitRuns p cs []
    else ⟨acc.reverse⟩ :: splitRuns p cs []

/-- The alphanumeric tokens of a string (token regex applied to it). -/
def alnumTokens (s : String) : List String := splitRuns isAlnumAscii s.data []

/-- The `GENERIC` set of `content_tokens`. -/
def GENERIC : Finset String :=
  {"city", "center", "centre", "view", "area", "place", "space",
   "access", "daily", "day", "night", "room"}

/-- `content_tokens` of `nlp_service.py`.  The spaCy stop-word list
`nlp.Defaults.stop_words` is external model data and is passed in as the
parameter `STOP`. -/
def content_tokens (STOP : Finset String) (s : String) : Finset String :=
  ((alnumTokens (norm_txt s)).filter
    (fun t => 3 ≤ t.length && !(decide (t ∈ STOP)) && !(decide (t ∈ GENERIC)))).toFinset

/-- Substring test (`pat in hay` / `Series.str.contains(pat, regex=False)`),
on character lists. -/
def listStartsWith : List Char → List Char → Bool
  | _, [] => true
  | [], _ :: _ => false
  | a :: as, b :: bs => a = b && listStartsWith as bs

/-- `pat` occurs as a contiguous substring of `hay`. -/
def listContainsSub (hay pat : List Char) : Bool :=
  match hay with
  | [] => pat.isEmpty
  | _ :: t => listStartsWith hay pat || listContainsSub t pat

/-- String containment, Python `pat in hay`. -/
def strContains (hay pat : String) : Bool := listContainsSub hay.data pat.data

/-! ## `best_two`: index and value of the top two similarities

`best_two` in `nlp_service.py` returns `(-1, -1.0, -1.0)` on an empty array;
we return `none` in that case (no call site uses the `-1` index: the amenity
and type extractors `continue` on `j < 0`, and the geo extractor's thresholds
exceed `-1`).  On a singleton array the second maximum is the sentinel `-1`. -/

/-- First index of the maximum of a rational list (`np.argmax`). -/
def argmaxIdx (l : List ℚ) : Option ℕ :=
  match l with
  | [] => none
  | x :: xs =>
    some ((xs.foldl
      (fun (p : ℕ × ℚ × ℕ) v =>
        if p.2.1 < v then (p.2.2, v, p.2.2 + 1) else (p.1, p.2.1, p.2.2 + 1))
      (0, x, 1)).1)

/-- Maximum of the entries of `l` at positions other than `j`
(the code sets `b[j] = -inf` and takes `b.max()`). -/
def maxExcept (l : List ℚ) (j : ℕ) : Option ℚ :=
  match ((l.enum.filter (fun p => p.1 ≠ j)).map Prod.snd) with
  | [] => none
  | v :: rest => some (rest.foldl max v)

/-- `best_two` of `nlp_service.py`: the argmax index, the maximum, and the
second maximum (sentinel `-1` when only one entry exists). -/
def best_two (a : List ℚ) : Option (ℕ × ℚ × ℚ) :=
  match argmaxIdx a with
  | none => none
  | some j =>
    match maxExcept a j with
    | none => some (j, a.getD j 0, -1)
    | some m2 => some (j, a.getD j 0, m2)

/-! ## Hybrid ranker (`lexical_similarities`, `rerank_semantic_with_lex`)

A candidate row carries the externally computed quantities it contributes to
the ranking: `semRaw` is the dot product `listing_embeddings[idx] @ qv`, and
`idx` is the candidate's position in the corpus-wide TF-IDF similarity
vector. -/

structure Cand where
  idx : ℕ
  semRaw : ℚ
  review_scores_rating : Option ℚ
  price : Option ℚ
  accommodates : ℕ
  price_per_guest : Option ℚ
deriving DecidableEq, Repr

/-- The ranking context: the raw corpus-wide TF-IDF cosine-similarity vector
for the query (`(X_tfidf @ qv.T).ravel()`), before min-max normalisation. -/
structure RankCtx where
  lexAll : List ℚ
deriving DecidableEq

/-- Minimum of a rational list (pandas `Series.min()`, which skips `NaN`:
callers pass the list of non-`NaN` values). -/
def qListMin : List ℚ → Option ℚ
  | [] => none
  | x :: xs => some (xs.foldl min x)

/-- Maximum of a rational list (pandas `Series.max()`). -/
def qListMax : List ℚ → Option ℚ
  | [] => none
  | x :: xs => some (xs.foldl max x)

/-- `lexical_similarities` of `nlp_service.py` after the external sparse
product: min-max normalise the corpus-wide similarity vector when
`max > min`, else return it unchanged. -/
def lexical_similarities (simsRaw : List ℚ) : List ℚ :=
  match qListMin simsRaw, qListMax simsRaw with
  | some lo, some hi =>
    if lo < hi then simsRaw.map (fun v => (v - lo) / (hi - lo)) else simsRaw
  | _, _ => simsRaw

/-- `np.clip(q, 0, 1)`. -/
def clip01 (q : ℚ) : ℚ := max 0 (min 1 q)

/-- The semantic signal of a candidate: `np.clip((sem + 1)/2, 0, 1)`. -/
def semSig (c : Cand) : ℚ := clip01 ((c.semRaw + 1) / 2)

/-- The lexical signal: the candidate's entry of the normalised corpus-wide
vector (`lex_all[candidates.index.values]`). -/
def lexSig (ctx : RankCtx) (c : Cand) : ℚ :=
  (lexical_similarities ctx.lexAll).getD c.idx 0

/-- The rating signal:
`candidates.get('review_scores_rating', 0.0).fillna(0.0) / 100.0`. -/
def ratSig (c : Cand) : ℚ := c.review_scores_rating.getD 0 / 100

/-- Per-guest price:
`ppg = price_per_guest.fillna(price / accommodates.replace(0, nan))`.
`none` is `NaN`: it arises when `price_per_guest` is missing and either
`accommodates = 0` or `price` is itself missing. -/
def ppgOf (c : Cand) : Option ℚ :=
  match c.price_per_guest with
  | some v => some v
  | none =>
    if c.accommodates = 0 then none
    else c.price.map (fun p => p / (c.accommodates : ℚ))

/-- The price signal of candidate `c` within the candidate set `cands`:
`((ppg - pmin) / (pmax - pmin + 1e-9)).clip(0, 1)`.  `pmin`/`pmax` skip
`NaN` entries; a `NaN` per-guest price propagates to a `NaN` signal. -/
def priceSig (cands : List Cand) (c : Cand) : Option ℚ :=
  match ppgOf c, qListMin (cands.filterMap ppgOf), qListMax (cands.filterMap ppgOf) with
  | some p, some lo, some hi => some (clip01 ((p - lo) / (hi - lo + 1 / 1000000000)))
  | _, _, _ => none

/-- The composite score
`0.55*sem + 0.20*lex + 0.15*rating + 0.10*(1 - price)` (the default weights of
`rerank_semantic_with_lex`).  It is `NaN` (`none`) exactly when the price
signal is. -/
def scoreOf (ctx : RankCtx) (cands : List Cand) (c : Cand) : Option ℚ :=
  (priceSig cands c).map
    (fun pr => 55/100 * semSig c + 20/100 * lexSig ctx c
      + 15/100 * ratSig c + 10/100 * (1 - pr))

/-- Pair every candidate with its composite score (`out['__score'] = score`). -/
def attachScores (ctx : RankCtx) (cands : List Cand) : List (Cand × Option ℚ) :=
  cands.map (fun c => (c, scoreOf ctx cands c))

/-- Sort key for a descending column with `NaN` placed last:
`some q ↦ -q`, `none ↦ ⊤`. -/
def negKey : Option ℚ → WithTop ℚ
  | some q => ((-q : ℚ) : WithTop ℚ)
  | none => ⊤

/-- Sort key for an ascending column with `NaN` placed last. -/
def ascKey : Option ℚ → WithTop ℚ
  | some q => (q : WithTop ℚ)
  | none => ⊤

/-- The lexicographic sort key of
`sort_values(['__score', 'review_scores_rating', 'price'],
ascending=[False, False, True])` (`na_position='last'`). -/
def rankKey (x : Cand × Option ℚ) : Lex (WithTop ℚ × Lex (WithTop ℚ × WithTop ℚ)) :=
  toLex (negKey x.2, toLex (negKey x.1.review_scores_rating, ascKey x.1.price))

/-- The Boolean sort order used by the ranker's stable mergesort. -/
def rankLe (x y : Cand × Option ℚ) : Bool := decide (rankKey x ≤ rankKey y)

/-- The scored candidate list in ranked order (`kind='mergesort'`, a stable
sort). -/
def rerankScored (ctx : RankCtx) (cands : List Cand) : List (Cand × Option ℚ) :=
  (attachScores ctx cands).mergeSort rankLe

/-- `rerank_semantic_with_lex`: empty input is returned unchanged, otherwise
the candidates in ranked order (the `__score` column is dropped at the end). -/
def rerank_semantic_with_lex (ctx : RankCtx) (cands : List Cand) : List Cand :=
  match cands with
  | [] => []
  | _ => (rerankScored ctx cands).map Prod.fst

/-! ## Filter engine (`amenities_family_satisfied`, `apply_filters_ml`)

A corpus row carries the columns the filter reads.  Column *presence* is a
property of the whole frame, so the corpus records whether the
`minimum_nights`/`maximum_nights`, `has_availability` and `amenities_canon`
columns exist.  `price` is a float column (`none` = `NaN`; a pandas
comparison with `NaN` is `False`). -/

structure Row where
  neighbourhood_group_cleansed : String
  neighbourhood_cleansed : String
  accommodates : ℤ
  minimum_nights : ℤ
  maximum_nights : ℤ
  price : Option ℚ
  room_type : String
  property_type : String
  amenities_canon : List String
  has_availability : Bool
deriving DecidableEq, Repr

structure Corpus where
  rows : List Row
  hasNightsCols : Bool
  hasAvailCol : Bool
  hasAmenCanonCol : Bool
deriving DecidableEq

/-- The parsed-query filter specification (`spec` dict).  A `[]` list or a
`none` field is an absent constraint (Python truthiness / `is not None`). -/
structure Spec where
  neigh_groups : List String
  neighbourhoods : List String
  guests : Option ℤ
  nights : Option ℤ
  price_min : Option ℚ
  price_max : Option ℚ
  room_type : Option String
  property_type : Option String
  amenities_all : List String
deriving DecidableEq, Repr

/-- The spec with every field absent. -/
def emptySpec : Spec :=
  { neigh_groups := [], neighbourhoods := [], guests := none, nights := none,
    price_min := none, price_max := none, room_type := none,
    property_type := none, amenities_all := [] }

/-- `amenities_family_satisfied` of `nlp_service.py`. -/
def amenities_family_satisfied (list_canon required_canon : List String) : Bool :=
  if required_canon.isEmpty then true
  else if list_canon.isEmpty then false
  else required_canon.all (fun rc => list_canon.contains rc)

/-- The conjunction of row predicates accumulated in the mask `m` of
`apply_filters_ml`. -/
def rowPred (co : Corpus) (s : Spec) (r : Row) : Bool :=
  (s.neigh_groups.isEmpty || s.neigh_groups.contains (norm_txt r.neighbourhood_group_cleansed))
  && (s.neighbourhoods.isEmpty || s.neighbourhoods.contains (norm_txt r.neighbourhood_cleansed))
  && (match s.guests with
      | none => true
      | some g => decide (g ≤ r.accommodates))
  && (match s.nights with
      | none => true
      | some n =>
        !co.hasNightsCols || (decide (r.minimum_nights ≤ n) && decide (n ≤ r.maximum_nights)))
  && (match s.price_min with
      | none => true
      | some p => match r.price with | none => false | some q => decide (p ≤ q))
  && (match s.price_max with
      | none => true
      | some p => match r.price with | none => false | some q => decide (q ≤ p))
  && (match s.room_type with
      | none => true
      | some rt => norm_txt r.room_type == norm_txt rt)
  && (match s.property_type with
      | none => true
      | some pt => strContains (norm_txt r.property_type) (norm_txt pt))
  && (s.amenities_all.isEmpty || amenities_family_satisfied r.amenities_canon s.amenities_all)
  && (!co.hasAvailCol || r.has_availability)

/-- `apply_filters_ml` of `nlp_service.py`: raises `ValueError` when amenity
filtering is requested but the `amenities_canon` column is missing, else
returns the rows passing the mask, in corpus order (`df.loc[m]`). -/
def apply_filters_ml (co : Corpus) (s : Spec) : Except String (List Row) :=
  if !s.amenities_all.isEmpty && !co.hasAmenCanonCol then
    Except.error "amenities_canon column missing"
  else
    Except.ok (co.rows.filter (rowPred co s))

/-- The nine spec fields that `apply_filters_ml` reads. -/
inductive SpecField
  | neighGroups | neighbourhoods | guests | nights
  | priceMin | priceMax | roomType | propertyType | amenities
deriving DecidableEq

/-- Set one field of the spec to absent. -/
def clearField (f : SpecField) (s : Spec) : Spec :=
  match f with
  | .neighGroups => { s with neigh_groups := [] }
  | .neighbourhoods => { s with neighbourhoods := [] }
  | .guests => { s with guests := none }
  | .nights => { s with nights := none }
  | .priceMin => { s with price_min := none }
  | .priceMax => { s with price_max := none }
  | .roomType => { s with room_type := none }
  | .propertyType => { s with property_type := none }
  | .amenities => { s with amenities_all := [] }

/-! ## Geo extractor (`neighborhoods_groups_from_query`)

A phrase arrives with its externally computed similarity vectors against the
group pool (`v @ E_GROUP.T`) and the neighbourhood pool (`v @ E_NEIGH.T`); the
pools and the corpus-derived `group_to_neigh` relation are frozen context.
The code appends the whole query string as a final phrase; here the phrase
list is the already-assembled input.  Python returns the two accepted sets as
lists in unspecified set-iteration order; the embedding returns the sets. -/

structure GeoPhrase where
  raw : String
  simsG : List ℚ
  simsN : List ℚ
deriving DecidableEq

structure GeoCtx where
  STOP : Finset String
  group_norm : List String
  neigh_norm : List String
  group_to_neigh : String → Finset String

/-- Per-phrase group acceptance: `if g1 >= thr_group: groups.add(group_norm[jg])`
— absolute threshold only, no margin and no lexical gate. -/
def geoAcceptGroup (ctx : GeoCtx) (thrGroup : ℚ) (p : GeoPhrase) : Option String :=
  match best_two p.simsG with
  | none => none
  | some (jg, g1, _) =>
    if thrGroup ≤ g1 then some (ctx.group_norm.getD jg "") else none

/-- Per-phrase neighbourhood acceptance: absolute threshold, margin `0.06`,
and the lexical gate
`content_tokens(raw) & set(re.findall(r"[a-z0-9]+", neigh_norm[jn]))`. -/
def geoAcceptNeigh (ctx : GeoCtx) (thrNeigh : ℚ) (p : GeoPhrase) : Option String :=
  match best_two p.simsN with
  | none => none
  | some (jn, n1, n2) =>
    let lbl := ctx.neigh_norm.getD jn ""
    if thrNeigh ≤ n1 && (decide (n2 < 0) || decide (6/100 ≤ n1 - n2))
        && !((content_tokens ctx.STOP p.raw) ∩ (alnumTokens lbl).toFinset = ∅) then
      some lbl
    else none

/-- The groups accepted by the per-phrase loop. -/
def phraseGroups (ctx : GeoCtx) (thrGroup : ℚ) (phrases : List GeoPhrase) : Finset String :=
  (phrases.filterMap (geoAcceptGroup ctx thrGroup)).toFinset

/-- The neighbourhoods accepted by the per-phrase loop. -/
def phraseNeighs (ctx : GeoCtx) (thrNeigh : ℚ) (phrases : List GeoPhrase) : Finset String :=
  (phrases.filterMap (geoAcceptNeigh ctx thrNeigh)).toFinset

/-- `neighborhoods_groups_from_query`: per-phrase loop, lexical substring
fallback over the normalised query, and the group-consistency filter on
neighbourhoods. -/
def neighborhoods_groups_from_query (ctx : GeoCtx) (query : String)
    (phrases : List GeoPhrase) (thrNeigh thrGroup : ℚ) :
    Finset String × Finset String :=
  let qn := norm_txt query
  let groups := phraseGroups ctx thrGroup phrases ∪
    (ctx.group_norm.filter (fun g => strContains qn g)).toFinset
  let neighs := phraseNeighs ctx thrNeigh phrases ∪
    (ctx.neigh_norm.filter (fun n => strContains qn n)).toFinset
  let neighs :=
    if groups = ∅ then neighs
    else neighs.filter (fun n => ∃ g ∈ groups, n ∈ ctx.group_to_neigh g)
  (neighs, groups)

/-! ## Type extractor (`type_from_query_by_centroid`) -/

structure Phrase where
  raw : String
  sims : List ℚ
deriving DecidableEq

/-- Per-phrase acceptance of `type_from_query_by_centroid`: absolute
threshold, margin, and a lexical gate on the phrase or on the whole query. -/
def typeAccept (STOP : Finset String) (qtok : Finset String) (labels_norm : List String)
    (TOKENS_MAP : String → Finset String) (th_abs th_margin : ℚ) (p : Phrase) :
    Option (String × ℚ) :=
  match best_two p.sims with
  | none => none
  | some (j, m1, m2) =>
    let lbl := labels_norm.getD j ""
    let g := TOKENS_MAP lbl
    if th_abs ≤ m1 && (decide (m2 < 0) || decide (th_margin ≤ m1 - m2))
        && (!((content_tokens STOP p.raw) ∩ g = ∅) || !(qtok ∩ g = ∅)) then
      some (lbl, m1)
    else none

/-- `type_from_query_by_centroid`: keep the accepted label of highest
similarity (`if m1 > best_score`, initial best score `-1.0`). -/
def type_from_query_by_centroid (STOP : Finset String) (query : String)
    (labels_norm : List String) (TOKENS_MAP : String → Finset String)
    (th_abs th_margin : ℚ) (phrases : List Phrase) : Option String :=
  let qtok := content_tokens STOP query
  (phrases.foldl
    (fun (best : Option String × ℚ) p =>
      match typeAccept STOP qtok labels_norm TOKENS_MAP th_abs th_margin p with
      | some (lbl, m1) => if best.2 < m1 then (some lbl, m1) else best
      | none => best)
    (none, -1)).1

/-! ## Amenity extractor (`canonical_amenities_from_query`)

Frozen context: the canonical catalog `CANON_LIST` (whose per-label token bags
`CANON_TOKENS[c] = content_tokens(c)` are recomputed here), and the
near-duplicate merge map `CANON_MERGE` (a total function modelling
`CANON_MERGE.get(h, h)`). -/

structure AmenCtx where
  STOP : Finset String
  CANON_LIST : List String
  CANON_MERGE : String → String

/-- The `GENERIC_MODIFIERS` set stripped by `label_merge_key`. -/
def GENERIC_MODIFIERS : Finset String :=
  {"standard", "estandar", "basic", "regular", "general"}

/-- Comparison of strings by code points (Python string comparison). -/
def dataLe (a b : String) : Prop := a.data ≤ b.data

instance : DecidableRel dataLe := fun a b => by unfold dataLe; infer_instance

instance : IsTrans String dataLe := ⟨fun _ _ _ h1 h2 => le_trans h1 h2⟩

instance : IsAntisymm String dataLe := ⟨fun a b h1 h2 => by
  have h := le_antisymm h1 h2
  cases a; cases b; exact congrArg String.mk h⟩

instance : IsTotal String dataLe := ⟨fun a b => le_total a.data b.data⟩

/-- `label_merge_key`: the content tokens of the label minus generic
modifiers, as a sorted tuple; if empty, the singleton `(norm_txt label,)`. -/
def label_merge_key (STOP : Finset String) (label : String) : List String :=
  let toks := content_tokens STOP label \ GENERIC_MODIFIERS
  if toks = ∅ then [norm_txt label] else toks.sort dataLe

/-- All characters ASCII (`all(ord(ch) < 128 for ch in lbl)`). -/
def asciiOk (s : String) : Bool := s.data.all (fun c => c.toNat < 128)

/-- Strict comparison under the cleanup preference key
`(0 if ascii else 1, len(lbl), norm_txt(lbl))`. -/
def prefKeyLt (a b : String) : Bool :=
  (asciiOk a && !asciiOk b)
  || ((asciiOk a == asciiOk b)
      && (decide (a.length < b.length)
          || (a.length == b.length && decide ((norm_txt a).data < (norm_txt b).data))))

/-- Non-strict comparison under the cleanup preference key. -/
def prefKeyLe (a b : String) : Bool := !(prefKeyLt b a)

/-- `sorted(lbls, key=...)[0]`: the first element of minimal preference key. -/
def pickPref : List String → String
  | [] => ""
  | x :: xs => xs.foldl (fun b a => if prefKeyLt a b then a else b) x

/-- Per-phrase amenity acceptance: the semantic + margin + phrase-lexical
gate, with the whole-query lexical fallback (`q_tokens & canon_tokens`). -/
def amenAccept (ctx : AmenCtx) (qtok : Finset String) (th_abs th_margin : ℚ)
    (p : Phrase) : Option String :=
  match best_two p.sims with
  | none => none
  | some (j, m1, m2) =>
    let canon := ctx.CANON_LIST.getD j ""
    let ctoks := content_tokens ctx.STOP canon
    let ptoks := content_tokens ctx.STOP p.raw
    if th_abs ≤ m1 && (decide (m2 < 0) || decide (th_margin ≤ m1 - m2))
        && !(ptoks ∩ ctoks = ∅) then
      some canon
    else if !(qtok ∩ ctoks = ∅) then some canon
    else none

/-- The set `hits` accumulated by the phrase loop. -/
def amenHits (ctx : AmenCtx) (qtok : Finset String) (th_abs th_margin : ℚ)
    (phrases : List Phrase) : Finset String :=
  (phrases.filterMap (amenAccept ctx qtok th_abs th_margin)).toFinset

/-- The cleanup step: group the merged labels by `label_merge_key` and keep
one preferred label per group.  (Canonical labels are distinct normalised
strings, so the preference key is injective on them and the Python result
does not depend on set-iteration order; the group list is materialised in
code-point order.) -/
def cleanedSet (STOP : Finset String) (merged : Finset String) : Finset String :=
  (merged.image (label_merge_key STOP)).image
    (fun k => pickPref ((merged.filter (fun l => label_merge_key STOP l = k)).sort dataLe))

/-- `canonical_amenities_from_query`: phrase loop, `CANON_MERGE` merging,
cleanup, and the final sort by the preference key (a stable sort over the
materialised set). -/
def canonical_amenities_from_query (ctx : AmenCtx) (query : String)
    (phrases : List Phrase) (th_abs th_margin : ℚ) : List String :=
  let qtok := content_tokens ctx.STOP query
  let hits := amenHits ctx qtok th_abs th_margin phrases
  if hits = ∅ then []
  else
    let merged := hits.image ctx.CANON_MERGE
    let cleaned := cleanedSet ctx.STOP merged
    (cleaned.sort dataLe).mergeSort prefKeyLe

/-! ## Amenity canonicaliser (`build_amenity_clusters`)

The corpus input is the `amenities_norm` column: one list of raw amenity
strings per listing.  The k-means cluster assignment over the token
embeddings is external and enters as a function `cid : String → ℕ`
(`AMEN_CLUSTER_ID`).  Everything downstream of the assignment — the sorted
vocabulary, the corpus frequencies, the per-cluster member lists in
vocabulary order, and the canonical-representative choice by the stable sort
on the key `(-freq, len)` — is embedded from the source. -/

/-- Boolean code-point comparison of strings (Python `sorted` order). -/
def strLeB (a b : String) : Bool := decide (a.data ≤ b.data)

/-- One row of `amenities_norm`, processed:
`[norm_txt(x) for x in row if x]`. -/
def processedRow (row : List String) : List String :=
  (row.filter (fun x => !(x == ""))).map norm_txt

/-- Every processed token occurrence of the corpus (counted with
multiplicity, as `tok_freq` does). -/
def allAmenTokens (rows : List (List String)) : List String :=
  (rows.map processedRow).flatten

/-- `ALL_AMEN_TOKENS = sorted(all_tokens)`: the deduplicated token
vocabulary in ascending code-point order. -/
def amenVocab (rows : List (List String)) : List String :=
  (allAmenTokens rows).dedup.mergeSort strLeB

/-- `tok_freq`: the corpus occurrence count of a token. -/
def tok_freq (rows : List (List String)) (t : String) : ℕ :=
  ((allAmenTokens rows).filter (fun x => x == t)).length

/-- `cluster_members[cid]`, in vocabulary order (the dict over
`AMEN_CLUSTER_ID` preserves the insertion order `ALL_AMEN_TOKENS`). -/
def clusterMembers (rows : List (List String)) (cid : String → ℕ) (c : ℕ) : List String :=
  (amenVocab rows).filter (fun t => cid t == c)

/-- The sort key `(-tok_freq.get(t, 0), len(t))` as a non-strict Boolean
comparison: higher frequency first, then shorter string first. -/
def canonKeyLe (freq : String → ℕ) (t u : String) : Bool :=
  decide (freq u < freq t) || (freq t == freq u && decide (t.length ≤ u.length))

/-- `toks_sorted[0]`: the head of the stable sort of the member list under
`canonKeyLe`. -/
def pickCanon (freq : String → ℕ) (toks : List String) : String :=
  (toks.mergeSort (canonKeyLe freq)).headD ""

/-- `AMEN_CANON[t] = CLUSTER_CANON[AMEN_CLUSTER_ID[t]]`: the canonical
representative of `t`'s cluster. -/
def AMEN_CANON (rows : List (List String)) (cid : String → ℕ) (t : String) : String :=
  pickCanon (tok_freq rows) (clusterMembers rows cid (cid t))

/-! ## Helper lemmas: folded minima/maxima, clipping, list indexing -/

lemma foldl_min_le_init (xs : List ℚ) (x : ℚ) : xs.foldl min x ≤ x := by
  induction xs generalizing x with
  | nil => exact le_rfl
  | cons y ys ih => exact le_trans (ih (min x y)) (min_le_left x y)

lemma foldl_min_le_mem {xs : List ℚ} {v : ℚ} (x : ℚ) (hv : v ∈ xs) :
    xs.foldl min x ≤ v := by
  induction xs generalizing x with
  | nil => cases hv
  | cons y ys ih =>
    rcases List.mem_cons.mp hv with h | h
    · subst h
      exact le_trans (foldl_min_le_init ys (min x v)) (min_le_right x v)
    · exact ih (min x y) h

lemma le_foldl_max_init (xs : List ℚ) (x : ℚ) : x ≤ xs.foldl max x := by
  induction xs generalizing x with
  | nil => exact le_rfl
  | cons y ys ih => exact le_trans (le_max_left x y) (ih (max x y))

lemma le_foldl_max_mem {xs : List ℚ} {v : ℚ} (x : ℚ) (hv : v ∈ xs) :
    v ≤ xs.foldl max x := by
  induction xs generalizing x with
  | nil => cases hv
  | cons y ys ih =>
    rcases List.mem_cons.mp hv with h | h
    · subst h
      exact le_trans (le_max_right x v) (le_foldl_max_init ys (max x v))
    · exact ih (max x y) h

lemma qListMin_le {l : List ℚ} {v : ℚ} (hv : v ∈ l) :
    ∃ lo, qListMin l = some lo ∧ lo ≤ v := by
  cases l with
  | nil => cases hv
  | cons x xs =>
    refine ⟨xs.foldl min x, rfl, ?_⟩
    rcases List.mem_cons.mp hv with h | h
    · subst h; exact foldl_min_le_init xs v
    · exact foldl_min_le_mem x h

lemma qListMax_ge {l : List ℚ} {v : ℚ} (hv : v ∈ l) :
    ∃ hi, qListMax l = some hi ∧ v ≤ hi := by
  cases l with
  | nil => cases hv
  | cons x xs =>
    refine ⟨xs.foldl max x, rfl, ?_⟩
    rcases List.mem_cons.mp hv with h | h
    · subst h; exact le_foldl_max_init xs v
    · exact le_foldl_max_mem x h

lemma qListMin_le_of_mem {l : List ℚ} {lo v : ℚ} (h : qListMin l = some lo)
    (hv : v ∈ l) : lo ≤ v := by
  obtain ⟨lo2, h2, hle⟩ := qListMin_le hv
  rw [h] at h2
  cases h2
  exact hle

lemma qListMax_ge_of_mem {l : List ℚ} {hi v : ℚ} (h : qListMax l = some hi)
    (hv : v ∈ l) : v ≤ hi := by
  obtain ⟨hi2, h2, hle⟩ := qListMax_ge hv
  rw [h] at h2
  cases h2
  exact hle

lemma clip01_nonneg (q : ℚ) : 0 ≤ clip01 q := le_max_left 0 _

lemma clip01_le_one (q : ℚ) : clip01 q ≤ 1 :=
  max_le (by norm_num) (min_le_left 1 q)

lemma getD_mem_or {α : Type} (l : List α) (i : ℕ) (d : α) :
    l.getD i d ∈ l ∨ l.getD i d = d := by
  induction l generalizing i with
  | nil => right; simp
  | cons x xs ih =>
    cases i with
    | zero => left; simp
    | succ j =>
      rcases ih j with h | h
      · left; simp only [List.getD_cons_succ]; exact List.mem_cons_of_mem x h
      · right; simpa using h

/-! ## Signal bounds for the hybrid ranker -/

lemma semSig_bounds (c : Cand) : 0 ≤ semSig c ∧ semSig c ≤ 1 :=
  ⟨clip01_nonneg _, clip01_le_one _⟩

lemma lexical_similarities_bounds {l : List ℚ} (hl : ∀ v ∈ l, 0 ≤ v ∧ v ≤ 1) :
    ∀ w ∈ lexical_similarities l, 0 ≤ w ∧ w ≤ 1 := by
  intro w hw
  unfold lexical_similarities at hw
  split at hw
  case _ lo hi hmin hmax =>
    split at hw
    case isTrue hlt =>
      obtain ⟨v, hv, rfl⟩ := List.mem_map.mp hw
      have h1 : lo ≤ v := qListMin_le_of_mem hmin hv
      have h2 : v ≤ hi := qListMax_ge_of_mem hmax hv
      constructor
      · exact div_nonneg (by linarith) (by linarith)
      · rw [div_le_one (by linarith)]
        linarith
    case isFalse _ => exact hl w hw
  case _ _ _ => exact hl w hw

lemma lexSig_bounds (ctx : RankCtx) (c : Cand)
    (hl : ∀ v ∈ ctx.lexAll, 0 ≤ v ∧ v ≤ 1) :
    0 ≤ lexSig ctx c ∧ lexSig ctx c ≤ 1 := by
  unfold lexSig
  rcases getD_mem_or (lexical_similarities ctx.lexAll) c.idx 0 with h | h
  · exact lexical_similarities_bounds hl _ h
  · rw [h]; norm_num

lemma ratSig_bounds (c : Cand) (h0 : 0 ≤ c.review_scores_rating.getD 0)
    (h100 : c.review_scores_rating.getD 0 ≤ 100) :
    0 ≤ ratSig c ∧ ratSig c ≤ 1 := by
  unfold ratSig
  constructor
  · positivity
  · rw [div_le_one (by norm_num)]
    linarith

lemma priceSig_some {cands : List Cand} {c : Cand} (hc : c ∈ cands) {p : ℚ}
    (hp : ppgOf c = some p) :
    ∃ pr, priceSig cands c = some pr ∧ 0 ≤ pr ∧ pr ≤ 1 := by
  have hmem : p ∈ cands.filterMap ppgOf := List.mem_filterMap.mpr ⟨c, hc, hp⟩
  obtain ⟨lo, hlo, -⟩ := qListMin_le hmem
  obtain ⟨hi, hhi, -⟩ := qListMax_ge hmem
  refine ⟨clip01 ((p - lo) / (hi - lo + 1 / 1000000000)), ?_, clip01_nonneg _, clip01_le_one _⟩
  unfold priceSig
  rw [hp, hlo, hhi]

/-! ## Claim C1 -/

/-- **C1**, amended.  For every candidate whose per-guest price is computable
(`price_per_guest` present, or `price` present and `accommodates ≠ 0`), the
composite score `0.55*semantic + 0.20*lexical + 0.15*rating + 0.10*(1-price)`
is defined and lies in `[0,1]`, for any query and candidate set — under the
corpus contracts that the raw corpus-wide TF-IDF similarities lie in `[0,1]`
(they are cosines of non-negative unit vectors) and that the candidate's
rating lies in `[0,100]`.  The original claim's extension to candidates whose
per-guest price cannot be computed is refuted by
`composite_score_includes_nan_price_cex`: there the score is `NaN`. -/
theorem composite_score_in_unit_interval (ctx : RankCtx) (cands : List Cand)
    (c : Cand) (hc : c ∈ cands) (hppg : ∃ p, ppgOf c = some p)
    (hlex : ∀ v ∈ ctx.lexAll, 0 ≤ v ∧ v ≤ 1)
    (hrat0 : 0 ≤ c.review_scores_rating.getD 0)
    (hrat100 : c.review_scores_rating.getD 0 ≤ 100) :
    ∃ s, scoreOf ctx cands c = some s ∧ 0 ≤ s ∧ s ≤ 1 := by
  obtain ⟨p, hp⟩ := hppg
  obtain ⟨pr, hpr, hpr0, hpr1⟩ := priceSig_some hc hp
  obtain ⟨hs0, hs1⟩ := semSig_bounds c
  obtain ⟨hl0, hl1⟩ := lexSig_bounds ctx c hlex
  obtain ⟨hr0, hr1⟩ := ratSig_bounds c hrat0 hrat100
  refine ⟨55/100 * semSig c + 20/100 * lexSig ctx c + 15/100 * ratSig c
    + 10/100 * (1 - pr), ?_, ?_, ?_⟩
  · unfold scoreOf
    rw [hpr]
    rfl
  · linarith
  · linarith

/-- Witness for C1 at a concrete candidate set. -/
theorem composite_score_in_unit_interval_witness :
    (⟨0, 0, some (9/2), some 50, 2, some 25⟩ : Cand) ∈
      ([⟨0, 0, some (9/2), some 50, 2, some 25⟩] : List Cand)
    ∧ ∃ s, scoreOf ⟨[1/2]⟩ [⟨0, 0, some (9/2), some 50, 2, some 25⟩]
        ⟨0, 0, some (9/2), some 50, 2, some 25⟩ = some s ∧ 0 ≤ s ∧ s ≤ 1 :=
  ⟨List.mem_singleton.mpr rfl,
    composite_score_in_unit_interval ⟨[1/2]⟩ _ _ (List.mem_singleton.mpr rfl)
      ⟨25, rfl⟩
      (by intro v hv; rw [List.mem_singleton] at hv; subst hv; norm_num)
      (by norm_num) (by norm_num)⟩

/-- **C1**, counterexample to the original claim: for the candidate with
`price_per_guest` missing and `accommodates = 0`, the composite score is
`NaN` (`none`), hence not a rational in `[0,1]`. -/
theorem composite_score_includes_nan_price_cex :
    ¬ (∀ c ∈ ([⟨0, 0, some (9/2), some 60, 0, none⟩] : List Cand),
        ∃ s, scoreOf ⟨[1/2]⟩ [⟨0, 0, some (9/2), some 60, 0, none⟩] c = some s
          ∧ 0 ≤ s ∧ s ≤ 1) := by
  intro h
  obtain ⟨s, hs, -⟩ := h _ (List.mem_singleton.mpr rfl)
  rw [show scoreOf ⟨[1/2]⟩ [⟨0, 0, some (9/2), some 60, 0, none⟩]
      ⟨0, 0, some (9/2), some 60, 0, none⟩ = none from rfl] at hs
  cases hs

/-! ## Claim C2 -/

/-- **C2**.  The code computes the rating signal as
`review_scores_rating / 100.0`, while the corpus rating scale is 0–5
(`main.py` treats `review_scores_rating ≥ 4.5` as the top band); a listing
with the maximum possible rating 5.0 therefore receives rating signal
`0.05`, not the claimed `1.0`. -/
theorem rating_signal_at_corpus_max_rating :
    ratSig ⟨0, 0, some 5, none, 1, none⟩ = 1/20 ∧ (1/20 : ℚ) ≠ 1 := by
  constructor
  · norm_num [ratSig]
  · norm_num

/-! ## Claim C4 -/

/-- **C4**, amended.  When the per-guest price of a candidate cannot be
computed (`price_per_guest` absent and `price/accommodates` undefined), the
price signal for that candidate is `NaN` (`none`) — not a neutral mid-value —
and so is its composite score; the rank nevertheless does not fail: the
candidate still appears in the ranked output (pandas sorts `NaN` keys last).
The neutral-mid-value reading of the original claim is refuted by
`price_neutral_mid_default_cex`. -/
theorem uncomputable_price_gives_nan_score (ctx : RankCtx) (cands : List Cand)
    (c : Cand) (hc : c ∈ cands) (hppg : ppgOf c = none) :
    priceSig cands c = none ∧ scoreOf ctx cands c = none
    ∧ c ∈ rerank_semantic_with_lex ctx cands := by
  have hprice : priceSig cands c = none := by
    unfold priceSig
    rw [hppg]
  refine ⟨hprice, ?_, ?_⟩
  · unfold scoreOf
    rw [hprice]
    rfl
  · have hmem : (c, scoreOf ctx cands c) ∈ attachScores ctx cands :=
      List.mem_map_of_mem _ hc
    cases cands with
    | nil => cases hc
    | cons a as =>
      show c ∈ (rerankScored ctx (a :: as)).map Prod.fst
      exact List.mem_map.mpr
        ⟨(c, scoreOf ctx (a :: as) c),
         (List.mem_mergeSort).mpr hmem, rfl⟩

/-- Witness for C4 at a concrete candidate set. -/
theorem uncomputable_price_gives_nan_score_witness :
    priceSig [⟨0, 0, some 4, some 60, 0, none⟩] ⟨0, 0, some 4, some 60, 0, none⟩ = none
    ∧ scoreOf ⟨[1]⟩ [⟨0, 0, some 4, some 60, 0, none⟩] ⟨0, 0, some 4, some 60, 0, none⟩ = none
    ∧ (⟨0, 0, some 4, some 60, 0, none⟩ : Cand) ∈
        rerank_semantic_with_lex ⟨[1]⟩ [⟨0, 0, some 4, some 60, 0, none⟩] :=
  uncomputable_price_gives_nan_score ⟨[1]⟩ _ _ (List.mem_singleton.mpr rfl) rfl

/-- **C4**, counterexample to the original claim: with `price_per_guest`
missing, `price` missing and `accommodates = 0`, the price signal is `NaN`
(`none`), i.e. no rational value at all — in particular not a neutral
mid-value — and the composite score is likewise undefined rather than
valid. -/
theorem price_neutral_mid_default_cex :
    (¬ ∃ v : ℚ, priceSig [⟨1, 1, none, none, 0, none⟩] ⟨1, 1, none, none, 0, none⟩ = some v)
    ∧ (¬ ∃ s : ℚ, scoreOf ⟨[0]⟩ [⟨1, 1, none, none, 0, none⟩] ⟨1, 1, none, none, 0, none⟩ = some s
        ∧ 0 ≤ s ∧ s ≤ 1) := by
  constructor
  · rintro ⟨v, hv⟩
    rw [show priceSig [⟨1, 1, none, none, 0, none⟩] ⟨1, 1, none, none, 0, none⟩ = none
        from rfl] at hv
    cases hv
  · rintro ⟨s, hs, -⟩
    rw [show scoreOf ⟨[0]⟩ [⟨1, 1, none, none, 0, none⟩] ⟨1, 1, none, none, 0, none⟩ = none
        from rfl] at hs
    cases hs

/-! ## Claim C5 -/

lemma rankLe_trans (a b c : Cand × Option ℚ) :
    rankLe a b → rankLe b c → rankLe a c := by
  intro h1 h2
  simp only [rankLe, decide_eq_true_eq] at h1 h2 ⊢
  exact le_trans h1 h2

lemma rankLe_total (a b : Cand × Option ℚ) : rankLe a b || rankLe b a := by
  simp only [rankLe, Bool.or_eq_true, decide_eq_true_eq]
  exact le_total _ _

/-- Equal fields give equal composite scores (the ranking pipeline reads a
candidate only through these projections). -/
lemma scoreOf_congr (ctx : RankCtx) (cands : List Cand) (a b : Cand)
    (hidx : a.idx = b.idx) (hsem : a.semRaw = b.semRaw)
    (hrat : a.review_scores_rating = b.review_scores_rating)
    (hppg : ppgOf a = ppgOf b) :
    scoreOf ctx cands a = scoreOf ctx cands b := by
  unfold scoreOf priceSig semSig lexSig ratSig
  rw [hidx, hsem, hrat, hppg]

/-- **C5**.  The ranker sorts the scored candidates by descending composite
score, then descending rating, then ascending price (`rankLe` is that
lexicographic order, `NaN` last), and the sort is stable: any two scored
candidates appearing in order in the input with identical score, rating and
price appear in the same relative order in the ranked output. -/
theorem rerank_sorted_and_stable (ctx : RankCtx) (cands : List Cand) :
    (rerankScored ctx cands).Pairwise (fun x y => rankLe x y = true)
    ∧ ∀ x y : Cand × Option ℚ,
        [x, y].Sublist (attachScores ctx cands) →
        x.2 = y.2 → x.1.review_scores_rating = y.1.review_scores_rating →
        x.1.price = y.1.price →
        [x.1, y.1].Sublist (rerank_semantic_with_lex ctx cands) := by
  constructor
  · exact List.sorted_mergeSort rankLe_trans rankLe_total _
  · intro x y hsub hscore hrating hprice
    have hkey : rankKey x = rankKey y := by
      unfold rankKey
      rw [hscore, hrating, hprice]
    have hpair : ([x, y]).Pairwise (fun a b => rankLe a b = true) := by
      refine List.pairwise_cons.mpr ⟨?_, List.pairwise_singleton _ _⟩
      intro b hb
      rw [List.mem_singleton] at hb
      subst hb
      simp only [rankLe, decide_eq_true_eq, hkey, le_refl]
    have hst : [x, y].Sublist (rerankScored ctx cands) :=
      List.sublist_mergeSort rankLe_trans rankLe_total hpair hsub
    have hmap := hst.map Prod.fst
    cases cands with
    | nil => simp [attachScores] at hsub
    | cons a as => exact hmap

/-- Two candidates differing only in an unused field (`accommodates` is not
read when `price_per_guest` is present). -/
def c5a : Cand := ⟨0, 0, some 4, some 80, 2, some 40⟩

/-- See `c5a`. -/
def c5b : Cand := ⟨0, 0, some 4, some 80, 3, some 40⟩

/-- A concrete ranking context for the C5 witness. -/
def ctx5 : RankCtx := ⟨[3/10]⟩

/-- Witness for C5: two candidates tie on score, rating and price, and keep
their input order in the ranked output. -/
theorem rerank_sorted_and_stable_witness :
    [c5a, c5b].Sublist (rerank_semantic_with_lex ctx5 [c5a, c5b]) := by
  have hsc : scoreOf ctx5 [c5a, c5b] c5a = scoreOf ctx5 [c5a, c5b] c5b :=
    scoreOf_congr ctx5 [c5a, c5b] c5a c5b rfl rfl rfl rfl
  exact (rerank_sorted_and_stable ctx5 [c5a, c5b]).2
    (c5a, scoreOf ctx5 [c5a, c5b] c5a) (c5b, scoreOf ctx5 [c5a, c5b] c5b)
    (List.Sublist.refl _) hsc rfl rfl

/-! ## Claims C6 and C10: the filter engine -/

lemma apply_filters_ok {co : Corpus} {s : Spec} {out : List Row}
    (h : apply_filters_ml co s = Except.ok out) :
    out = co.rows.filter (rowPred co s) := by
  unfold apply_filters_ml at h
  split at h
  · cases h
  · injection h with h
    exact h.symm

lemma truthy_mem {l : List String} {x : String}
    (h : (l.isEmpty || l.contains x) = true) (hne : l ≠ []) : x ∈ l := by
  rcases Bool.or_eq_true_iff.mp h with h1 | h1
  · exact absurd (List.isEmpty_iff.mp h1) hne
  · exact List.mem_of_elem_eq_true h1

/-- The per-row reading of each mask conjunct of `apply_filters_ml`. -/
lemma rowPred_props {co : Corpus} {s : Spec} {r : Row}
    (hr : rowPred co s r = true) :
    (s.neigh_groups ≠ [] → norm_txt r.neighbourhood_group_cleansed ∈ s.neigh_groups)
    ∧ (s.neighbourhoods ≠ [] → norm_txt r.neighbourhood_cleansed ∈ s.neighbourhoods)
    ∧ (∀ g, s.guests = some g → g ≤ r.accommodates)
    ∧ (∀ n, s.nights = some n → co.hasNightsCols = true →
        r.minimum_nights ≤ n ∧ n ≤ r.maximum_nights)
    ∧ (∀ p, s.price_min = some p → ∃ q, r.price = some q ∧ p ≤ q)
    ∧ (∀ p, s.price_max = some p → ∃ q, r.price = some q ∧ q ≤ p)
    ∧ (∀ rt, s.room_type = some rt → norm_txt r.room_type = norm_txt rt)
    ∧ (∀ pt, s.property_type = some pt →
        strContains (norm_txt r.property_type) (norm_txt pt) = true)
    ∧ (s.amenities_all ≠ [] →
        amenities_family_satisfied r.amenities_canon s.amenities_all = true) := by
  unfold rowPred at hr
  simp only [Bool.and_eq_true] at hr
  obtain ⟨⟨⟨⟨⟨⟨⟨⟨⟨h1, h2⟩, h3⟩, h4⟩, h5⟩, h6⟩, h7⟩, h8⟩, h9⟩, -⟩ := hr
  refine ⟨fun hne => truthy_mem h1 hne, fun hne => truthy_mem h2 hne,
    ?_, ?_, ?_, ?_, ?_, ?_, ?_⟩
  · intro g hg
    rw [hg] at h3
    exact of_decide_eq_true h3
  · intro n hn hcols
    rw [hn, hcols] at h4
    simp only [Bool.not_true, Bool.false_or, Bool.and_eq_true,
      decide_eq_true_eq] at h4
    exact h4
  · intro p hp
    rw [hp] at h5
    rcases hq : r.price with _ | q
    · rw [hq] at h5
      cases h5
    · rw [hq] at h5
      exact ⟨q, rfl, of_decide_eq_true h5⟩
  · intro p hp
    rw [hp] at h6
    rcases hq : r.price with _ | q
    · rw [hq] at h6
      cases h6
    · rw [hq] at h6
      exact ⟨q, rfl, of_decide_eq_true h6⟩
  · intro rt hrt
    rw [hrt] at h7
    exact eq_of_beq h7
  · intro pt hpt
    rw [hpt] at h8
    exact h8
  · intro hne
    rcases Bool.or_eq_true_iff.mp h9 with h | h
    · exact absurd (List.isEmpty_iff.mp h) hne
    · exact h

/-- Clearing one spec field weakens the row predicate pointwise. -/
lemma rowPred_mono (co : Corpus) (s : Spec) (f : SpecField) (r : Row)
    (h : rowPred co s r = true) : rowPred co (clearField f s) r = true := by
  unfold rowPred at h ⊢
  simp only [Bool.and_eq_true] at h ⊢
  obtain ⟨⟨⟨⟨⟨⟨⟨⟨⟨h1, h2⟩, h3⟩, h4⟩, h5⟩, h6⟩, h7⟩, h8⟩, h9⟩, h10⟩ := h
  cases f <;>
    simp only [clearField] <;>
    refine ⟨⟨⟨⟨⟨⟨⟨⟨⟨?_, ?_⟩, ?_⟩, ?_⟩, ?_⟩, ?_⟩, ?_⟩, ?_⟩, ?_⟩, ?_⟩ <;>
    first
    | exact h1 | exact h2 | exact h3 | exact h4 | exact h5
    | exact h6 | exact h7 | exact h8 | exact h9 | exact h10
    | simp

/-- **C6**.  For every spec and corpus on which the filter succeeds, the
output of `apply_filters_ml` is a sublist of the input rows (subset, in the
input's original order), every non-absent predicate of the spec holds on
every output row, and setting any one spec field to absent never shrinks the
result (the original output is a sublist of the relaxed output). -/
theorem filter_conjunction_monotone (co : Corpus) (s : Spec) (out : List Row)
    (h : apply_filters_ml co s = Except.ok out) :
    out.Sublist co.rows
    ∧ (∀ r ∈ out,
        (s.neigh_groups ≠ [] → norm_txt r.neighbourhood_group_cleansed ∈ s.neigh_groups)
        ∧ (s.neighbourhoods ≠ [] → norm_txt r.neighbourhood_cleansed ∈ s.neighbourhoods)
        ∧ (∀ g, s.guests = some g → g ≤ r.accommodates)
        ∧ (∀ n, s.nights = some n → co.hasNightsCols = true →
            r.minimum_nights ≤ n ∧ n ≤ r.maximum_nights)
        ∧ (∀ p, s.price_min = some p → ∃ q, r.price = some q ∧ p ≤ q)
        ∧ (∀ p, s.price_max = some p → ∃ q, r.price = some q ∧ q ≤ p)
        ∧ (∀ rt, s.room_type = some rt → norm_txt r.room_type = norm_txt rt)
        ∧ (∀ pt, s.property_type = some pt →
            strContains (norm_txt r.property_type) (norm_txt pt) = true)
        ∧ (s.amenities_all ≠ [] →
            amenities_family_satisfied r.amenities_canon s.amenities_all = true))
    ∧ (∀ f : SpecField, ∀ out2,
        apply_filters_ml co (clearField f s) = Except.ok out2 → out.Sublist out2) := by
  have hout := apply_filters_ok h
  subst hout
  refine ⟨List.filter_sublist _, ?_, ?_⟩
  · intro r hr
    exact rowPred_props (List.of_mem_filter hr)
  · intro f out2 h2
    have hout2 := apply_filters_ok h2
    subst hout2
    exact List.monotone_filter_right co.rows (fun r hr => rowPred_mono co s f r hr)

/-- A concrete corpus for the C6/C10 witnesses. -/
def wRowA : Row :=
  ⟨"centro", "sol", 4, 1, 30, some 90, "entire home", "apartment",
   ["wifi", "kitchen"], true⟩

/-- A row failing the price bound of `wSpec`. -/
def wRowB : Row :=
  ⟨"centro", "sol", 2, 1, 30, some 150, "entire home", "apartment",
   ["wifi"], true⟩

/-- See `wRowA`. -/
def wCorpus : Corpus := ⟨[wRowA, wRowB], true, true, true⟩

/-- A spec requesting wifi and a price cap of 100. -/
def wSpec : Spec :=
  ⟨[], [], some 2, none, none, some 100, none, none, ["wifi"]⟩

/-- Witness for C6, on the scenario corpus: the filter keeps exactly the
cheap listing, and the claims of `filter_conjunction_monotone` hold there. -/
theorem filter_conjunction_monotone_witness :
    [wRowA].Sublist wCorpus.rows
    ∧ (∀ p, wSpec.price_max = some p → ∃ q, wRowA.price = some q ∧ q ≤ p)
    ∧ ∀ out2, apply_filters_ml wCorpus (clearField SpecField.priceMax wSpec) =
        Except.ok out2 → [wRowA].Sublist out2 := by
  have h : apply_filters_ml wCorpus wSpec = Except.ok [wRowA] := by
    unfold apply_filters_ml
    norm_num [wCorpus, wSpec, rowPred, wRowA, wRowB, norm_txt, strip_accents,
      pyStrip, collapseWS, amenities_family_satisfied]
  have hthm := filter_conjunction_monotone wCorpus wSpec [wRowA] h
  refine ⟨hthm.1, ?_, fun out2 h2 => hthm.2.2 SpecField.priceMax out2 h2⟩
  intro p hp
  exact (hthm.2.1 wRowA (List.mem_singleton.mpr rfl)).2.2.2.2.2.1 p hp

/-- **C10**.  Whenever the corpus has a `has_availability` column, every
spec — the all-absent spec included — excludes rows whose availability flag
is not `True`: every row of the output has `has_availability = true`. -/
theorem availability_filter_always_applied (co : Corpus) (s : Spec)
    (out : List Row) (hcol : co.hasAvailCol = true)
    (h : apply_filters_ml co s = Except.ok out) :
    ∀ r ∈ out, r.has_availability = true := by
  have hout := apply_filters_ok h
  subst hout
  intro r hr
  have hp := List.of_mem_filter hr
  unfold rowPred at hp
  simp only [Bool.and_eq_true] at hp
  rcases Bool.or_eq_true_iff.mp hp.2 with hfalse | htrue
  · rw [hcol] at hfalse
    cases hfalse
  · exact htrue

/-- An unavailable copy of `wRowA`. -/
def wRowC : Row :=
  ⟨"centro", "sol", 4, 1, 30, some 90, "entire home", "apartment",
   ["wifi", "kitchen"], false⟩

/-- Witness for C10: under the all-absent spec the unavailable row is
dropped and every surviving row is available. -/
theorem availability_filter_always_applied_witness :
    apply_filters_ml ⟨[wRowA, wRowC], true, true, true⟩ emptySpec = Except.ok [wRowA]
    ∧ ∀ r ∈ [wRowA], r.has_availability = true := by
  have h : apply_filters_ml ⟨[wRowA, wRowC], true, true, true⟩ emptySpec =
      Except.ok [wRowA] := by
    unfold apply_filters_ml
    norm_num [emptySpec, rowPred, wRowA, wRowC]
  exact ⟨h, availability_filter_always_applied _ emptySpec [wRowA] rfl h⟩

/-! ## Claims C8 and C9: the amenity canonicaliser -/

lemma string_data_inj {a b : String} (h : a.data = b.data) : a = b := by
  cases a
  cases b
  exact congrArg String.mk h

lemma pickCanon_mem (freq : String → ℕ) (toks : List String) (h : toks ≠ []) :
    pickCanon freq toks ∈ toks := by
  unfold pickCanon
  have hperm := List.mergeSort_perm toks (canonKeyLe freq)
  rcases hms : toks.mergeSort (canonKeyLe freq) with _ | ⟨x, rest⟩
  · rw [hms] at hperm
    exact absurd (List.perm_nil.mp hperm.symm) h
  · rw [hms] at hperm
    simpa using hperm.subset (List.mem_cons_self x rest)

/-- **C8**.  Every vocabulary token maps to a canonical representative that is
itself in the vocabulary and is a fixed point of the map, so
`canonicalize(canonicalize(x).representativeLabel) = canonicalize(x)`; the map
is a pure function of the frozen cluster assignment, so repeated calls agree
by construction. -/
theorem amen_canon_idempotent (rows : List (List String)) (cid : String → ℕ)
    (t : String) (ht : t ∈ amenVocab rows) :
    AMEN_CANON rows cid t ∈ amenVocab rows
    ∧ AMEN_CANON rows cid (AMEN_CANON rows cid t) = AMEN_CANON rows cid t := by
  have htm : t ∈ clusterMembers rows cid (cid t) :=
    List.mem_filter.mpr ⟨ht, by simp⟩
  have hne : clusterMembers rows cid (cid t) ≠ [] := by
    intro hnil
    rw [hnil] at htm
    cases htm
  have hcm : AMEN_CANON rows cid t ∈ clusterMembers rows cid (cid t) :=
    pickCanon_mem _ _ hne
  have hcv : AMEN_CANON rows cid t ∈ amenVocab rows := (List.mem_filter.mp hcm).1
  have hcid : cid (AMEN_CANON rows cid t) = cid t := by
    have h2 := (List.mem_filter.mp hcm).2
    simpa using h2
  refine ⟨hcv, ?_⟩
  calc AMEN_CANON rows cid (AMEN_CANON rows cid t)
      = pickCanon (tok_freq rows) (clusterMembers rows cid (cid (AMEN_CANON rows cid t))) := rfl
    _ = pickCanon (tok_freq rows) (clusterMembers rows cid (cid t)) := by rw [hcid]
    _ = AMEN_CANON rows cid t := rfl

/-- Witness for C8 on a two-listing corpus with a single cluster. -/
theorem amen_canon_idempotent_witness :
    AMEN_CANON [["wifi"], ["wifi", "fast wifi"]] (fun _ => 0) "wifi" ∈
      amenVocab [["wifi"], ["wifi", "fast wifi"]]
    ∧ AMEN_CANON [["wifi"], ["wifi", "fast wifi"]] (fun _ => 0)
        (AMEN_CANON [["wifi"], ["wifi", "fast wifi"]] (fun _ => 0) "wifi")
      = AMEN_CANON [["wifi"], ["wifi", "fast wifi"]] (fun _ => 0) "wifi" :=
  amen_canon_idempotent [["wifi"], ["wifi", "fast wifi"]] (fun _ => 0) "wifi"
    (by
      rw [amenVocab, List.mem_mergeSort]
      decide)

lemma canonKeyLe_trans (freq : String → ℕ) :
    ∀ t u v : String, canonKeyLe freq t u → canonKeyLe freq u v → canonKeyLe freq t v := by
  intro t u v h1 h2
  simp only [canonKeyLe, Bool.or_eq_true, Bool.and_eq_true, decide_eq_true_eq,
    beq_iff_eq] at h1 h2 ⊢
  omega

lemma canonKeyLe_total (freq : String → ℕ) :
    ∀ t u : String, canonKeyLe freq t u || canonKeyLe freq u t := by
  intro t u
  simp only [canonKeyLe, Bool.or_eq_true, Bool.and_eq_true, decide_eq_true_eq,
    beq_iff_eq]
  omega

lemma strLeB_trans : ∀ a b c : String, strLeB a b → strLeB b c → strLeB a c := by
  intro a b c h1 h2
  simp only [strLeB, decide_eq_true_eq] at h1 h2 ⊢
  exact le_trans h1 h2

lemma strLeB_total : ∀ a b : String, strLeB a b || strLeB b a := by
  intro a b
  simp only [strLeB, Bool.or_eq_true, decide_eq_true_eq]
  exact le_total _ _

/-- The vocabulary is strictly sorted in code-point order. -/
lemma amenVocab_pairwise_lt (rows : List (List String)) :
    (amenVocab rows).Pairwise (fun a b => a.data < b.data) := by
  have hle : (amenVocab rows).Pairwise (fun a b => strLeB a b = true) :=
    List.sorted_mergeSort strLeB_trans strLeB_total _
  have hnd : (amenVocab rows).Nodup :=
    (List.mergeSort_perm _ strLeB).nodup_iff.mpr (List.nodup_dedup _)
  refine (hle.and hnd).imp ?_
  rintro a b ⟨h1, h2⟩
  simp only [strLeB, decide_eq_true_eq] at h1
  exact lt_of_le_of_ne h1 (fun hd => h2 (string_data_inj hd))

lemma pair_sublist_of_mem {α : Type} {l : List α} {a b : α}
    (ha : a ∈ l) (hb : b ∈ l) (hne : a ≠ b) :
    [a, b].Sublist l ∨ [b, a].Sublist l := by
  induction l with
  | nil => cases ha
  | cons x xs ih =>
    rcases List.mem_cons.mp ha with rfl | ha2
    · have hb2 : b ∈ xs := by
        rcases List.mem_cons.mp hb with h | h
        · exact absurd h.symm hne
        · exact h
      left
      exact (List.singleton_sublist.mpr hb2).cons₂ a
    · rcases List.mem_cons.mp hb with rfl | hb2
      · right
        exact (List.singleton_sublist.mpr ha2).cons₂ b
      · rcases ih ha2 hb2 with h | h
        · left
          exact h.cons x
        · right
          exact h.cons x

/-- **C9**.  The canonical representative of a cluster is its member of
maximal corpus frequency, ties broken by shorter length, remaining ties by
code-point order on the (already normalised) token — the last tie-break
arising from the stability of the sort over the member list, which is in
sorted vocabulary order. -/
theorem canon_rep_key_minimal (rows : List (List String)) (cid : String → ℕ)
    (t : String) (ht : t ∈ amenVocab rows) :
    AMEN_CANON rows cid t ∈ clusterMembers rows cid (cid t)
    ∧ ∀ u ∈ clusterMembers rows cid (cid t), u ≠ AMEN_CANON rows cid t →
        tok_freq rows u < tok_freq rows (AMEN_CANON rows cid t)
        ∨ (tok_freq rows u = tok_freq rows (AMEN_CANON rows cid t)
           ∧ ((AMEN_CANON rows cid t).length < u.length
              ∨ ((AMEN_CANON rows cid t).length = u.length
                 ∧ (AMEN_CANON rows cid t).data < u.data))) := by
  have htm : t ∈ clusterMembers rows cid (cid t) :=
    List.mem_filter.mpr ⟨ht, by simp⟩
  have hne : clusterMembers rows cid (cid t) ≠ [] := by
    intro hnil
    rw [hnil] at htm
    cases htm
  refine ⟨pickCanon_mem _ _ hne, ?_⟩
  set ms := clusterMembers rows cid (cid t) with hms
  have hms_lt : ms.Pairwise (fun a b => a.data < b.data) :=
    List.Pairwise.sublist (List.filter_sublist _) (amenVocab_pairwise_lt rows)
  have hms_nd : ms.Nodup := by
    refine hms_lt.imp ?_
    intro a b hab hei
    subst hei
    exact lt_irrefl _ hab
  have hsorted := List.sorted_mergeSort (canonKeyLe_trans (tok_freq rows))
    (canonKeyLe_total (tok_freq rows)) ms
  have hperm := List.mergeSort_perm ms (canonKeyLe (tok_freq rows))
  have hout_nd : (ms.mergeSort (canonKeyLe (tok_freq rows))).Nodup :=
    hperm.nodup_iff.mpr hms_nd
  intro u hu hune
  rcases hout : ms.mergeSort (canonKeyLe (tok_freq rows)) with _ | ⟨c, rest⟩
  · rw [hout] at hperm
    exact absurd (List.perm_nil.mp hperm.symm) hne
  · have hcanon : AMEN_CANON rows cid t = c := by
      show pickCanon (tok_freq rows) ms = c
      unfold pickCanon
      rw [hout]
      rfl
    rw [hout] at hsorted hperm hout_nd
    have hu_out : u ∈ c :: rest := hperm.mem_iff.mpr hu
    have hune2 : u ≠ c := by
      rw [hcanon] at hune
      exact hune
    have hu_rest : u ∈ rest := by
      rcases List.mem_cons.mp hu_out with h | h
      · exact absurd h hune2
      · exact h
    have hle : canonKeyLe (tok_freq rows) c u = true :=
      (List.pairwise_cons.mp hsorted).1 u hu_rest
    rw [hcanon]
    simp only [canonKeyLe, Bool.or_eq_true, Bool.and_eq_true, decide_eq_true_eq,
      beq_iff_eq] at hle
    rcases hle with hlt | hpairle
    · exact Or.inl hlt
    · obtain ⟨hfeq, hlen⟩ := hpairle
      rcases lt_or_eq_of_le hlen with hlt | heq
      · exact Or.inr ⟨hfeq.symm, Or.inl hlt⟩
      · refine Or.inr ⟨hfeq.symm, Or.inr ⟨heq, ?_⟩⟩
        have hcm : c ∈ ms := hperm.subset (List.mem_cons_self c rest)
        rcases lt_trichotomy c.data u.data with h | h | h
        · exact h
        · exact absurd (string_data_inj h) (Ne.symm hune2)
        · exfalso
          have hpairsub : [u, c].Sublist ms := by
            rcases pair_sublist_of_mem hu hcm hune2 with hs | hs
            · exact hs
            · exfalso
              exact lt_asymm (List.pairwise_iff_forall_sublist.mp hms_lt hs) h
          have hle_uc : canonKeyLe (tok_freq rows) u c = true := by
            simp only [canonKeyLe, Bool.or_eq_true, Bool.and_eq_true,
              decide_eq_true_eq, beq_iff_eq]
            omega
          have hpw : ([u, c]).Pairwise (fun a b => canonKeyLe (tok_freq rows) a b = true) := by
            refine List.pairwise_cons.mpr ⟨?_, List.pairwise_singleton _ _⟩
            intro b hb
            rw [List.mem_singleton] at hb
            subst hb
            exact hle_uc
          have hsub_out : [u, c].Sublist (ms.mergeSort (canonKeyLe (tok_freq rows))) :=
            List.sublist_mergeSort (canonKeyLe_trans (tok_freq rows))
              (canonKeyLe_total (tok_freq rows)) hpw hpairsub
          rw [hout] at hsub_out
          cases hsub_out with
          | cons _ htail =>
            exact (List.nodup_cons.mp hout_nd).1 (htail.subset (by simp))
          | cons₂ _ htail =>
            exact hune2 rfl

/-- A one-listing corpus for the C9 witness. -/
def c9rows : List (List String) := [["wifi", "kitchen"]]

/-- A single-cluster assignment for the C9 witness. -/
def c9cid : String → ℕ := fun _ => 0

/-- Witness for C9 on a concrete corpus and cluster assignment. -/
theorem canon_rep_key_minimal_witness :
    AMEN_CANON c9rows c9cid "kitchen" ∈ clusterMembers c9rows c9cid (c9cid "kitchen")
    ∧ ∀ u ∈ clusterMembers c9rows c9cid (c9cid "kitchen"),
        u ≠ AMEN_CANON c9rows c9cid "kitchen" →
        tok_freq c9rows u < tok_freq c9rows (AMEN_CANON c9rows c9cid "kitchen")
        ∨ (tok_freq c9rows u = tok_freq c9rows (AMEN_CANON c9rows c9cid "kitchen")
           ∧ ((AMEN_CANON c9rows c9cid "kitchen").length < u.length
              ∨ ((AMEN_CANON c9rows c9cid "kitchen").length = u.length
                 ∧ (AMEN_CANON c9rows c9cid "kitchen").data < u.data))) :=
  canon_rep_key_minimal c9rows c9cid "kitchen"
    (by rw [amenVocab, List.mem_mergeSort]; decide)

/-! ## Claim C3: the geo extractor's acceptance rules -/

/-- **C3**, amended.  In `neighborhoods_groups_from_query` the two pools are
*not* gated uniformly: a group is accepted by the phrase loop **iff** its
best similarity clears the absolute threshold — with no margin condition and
no lexical gate — while an accepted neighbourhood always satisfies the full
protocol (absolute threshold, margin `0.06`, lexical overlap with the
neighbourhood's tokens).  The uniform-protocol reading of the original claim
is refuted by `uniform_margin_protocol_cex`. -/
theorem group_accept_threshold_only (ctx : GeoCtx) (thrN thrG : ℚ)
    (phrases : List GeoPhrase) :
    (∀ g, g ∈ phraseGroups ctx thrG phrases ↔
      ∃ p ∈ phrases, ∃ j m1 m2, best_two p.simsG = some (j, m1, m2)
        ∧ thrG ≤ m1 ∧ ctx.group_norm.getD j "" = g)
    ∧ (∀ n ∈ phraseNeighs ctx thrN phrases,
      ∃ p ∈ phrases, ∃ j m1 m2, best_two p.simsN = some (j, m1, m2)
        ∧ thrN ≤ m1 ∧ (m2 < 0 ∨ 6/100 ≤ m1 - m2)
        ∧ ctx.neigh_norm.getD j "" = n
        ∧ (content_tokens ctx.STOP p.raw ∩ (alnumTokens n).toFinset).Nonempty) := by
  constructor
  · intro g
    rw [phraseGroups, List.mem_toFinset, List.mem_filterMap]
    constructor
    · rintro ⟨p, hp, hacc⟩
      refine ⟨p, hp, ?_⟩
      unfold geoAcceptGroup at hacc
      split at hacc
      next => cases hacc
      next j m1 m2 hbt =>
        split at hacc
        next hth =>
          injection hacc with hacc
          exact ⟨j, m1, m2, hbt, hth, hacc⟩
        next => cases hacc
    · rintro ⟨p, hp, j, m1, m2, hbt, hth, hlbl⟩
      refine ⟨p, hp, ?_⟩
      unfold geoAcceptGroup
      rw [hbt]
      show (if thrG ≤ m1 then some (ctx.group_norm.getD j "") else none) = some g
      rw [if_pos hth, hlbl]
  · intro n hn
    rw [phraseNeighs, List.mem_toFinset, List.mem_filterMap] at hn
    obtain ⟨p, hp, hacc⟩ := hn
    unfold geoAcceptNeigh at hacc
    split at hacc
    next => cases hacc
    next j m1 m2 hbt =>
      dsimp only at hacc
      split at hacc
      next hcond =>
        injection hacc with hacc
        simp only [Bool.and_eq_true, decide_eq_true_eq, Bool.or_eq_true,
          Bool.not_eq_true, decide_eq_false_iff_not] at hcond
        obtain ⟨⟨hth, hmargin⟩, hgate⟩ := hcond
        subst hacc
        refine ⟨p, hp, j, m1, m2, hbt, hth, hmargin, rfl,
          Finset.nonempty_iff_ne_empty.mpr ?_⟩
        intro hemp
        rw [hemp] at hgate
        simp at hgate
      next => cases hacc

/-- Witness for C3: the group-side characterisation applied at a concrete
phrase list. -/
theorem group_accept_threshold_only_witness :
    "alpha" ∈ phraseGroups ⟨∅, ["alpha", "beta"], [], fun _ => ∅⟩ 3
      [⟨"zzz", [4, 4], []⟩] :=
  ((group_accept_threshold_only ⟨∅, ["alpha", "beta"], [], fun _ => ∅⟩ 5 3
      [⟨"zzz", [4, 4], []⟩]).1 "alpha").mpr
    ⟨⟨"zzz", [4, 4], []⟩, List.mem_singleton.mpr rfl, 0, 4, 4, by decide,
      by norm_num, rfl⟩

/-- **C3**, counterexample to the original claim: with group pool
`["alpha", "beta"]` and a phrase whose group similarities are `[4, 4]`, the
best group match (`m1 = 4`, second-best `m2 = 4 ≥ 0`, margin `0`) is accepted
by `neighborhoods_groups_from_query` at absolute threshold `3` although
`m1 - m2 < 6/100` fails every positive margin threshold and no lexical
corroboration exists (`"alpha"` shares no token with the query `"zzz"`):
the margin half of the acceptance rule is not applied to groups. -/
theorem uniform_margin_protocol_cex :
    "alpha" ∈ (neighborhoods_groups_from_query ⟨∅, ["alpha", "beta"], [], fun _ => ∅⟩
        "zzz" [⟨"zzz", [4, 4], []⟩] 3 3).2
    ∧ best_two [(4 : ℚ), 4] = some (0, 4, 4)
    ∧ (0 : ℚ) ≤ 4 ∧ (4 : ℚ) - 4 < 6/100
    ∧ strContains (norm_txt "zzz") "alpha" = false := by
  refine ⟨by decide, by decide, by norm_num, by norm_num, by decide⟩

/-! ## Claim C7: margin monotonicity of the entity extractors -/

/-- Raising the margin can only lose a phrase-level amenity acceptance; the
accepted canonical label itself never changes (it is fixed by the argmax). -/
lemma amenAccept_mono (ctx : AmenCtx) (qtok : Finset String) (th_abs : ℚ)
    {tm tm' : ℚ} (hmm : tm ≤ tm') (p : Phrase) {c : String}
    (hacc : amenAccept ctx qtok th_abs tm' p = some c) :
    amenAccept ctx qtok th_abs tm p = some c := by
  unfold amenAccept at hacc ⊢
  split at hacc
  next => cases hacc
  next j m1 m2 hbt =>
    dsimp only at hacc ⊢
    split at hacc
    next hA =>
      simp only [Bool.and_eq_true, decide_eq_true_eq, Bool.or_eq_true] at hA
      obtain ⟨⟨habs, hmargin⟩, hgate⟩ := hA
      have hA2 : (decide (th_abs ≤ m1)
          && (decide (m2 < 0) || decide (tm ≤ m1 - m2))
          && !decide (content_tokens ctx.STOP p.raw ∩
              content_tokens ctx.STOP (ctx.CANON_LIST.getD j "") = ∅)) = true := by
        simp only [Bool.and_eq_true, decide_eq_true_eq, Bool.or_eq_true]
        refine ⟨⟨habs, ?_⟩, hgate⟩
        rcases hmargin with h | h
        · exact Or.inl h
        · exact Or.inr (by linarith)
      rw [if_pos hA2]
      exact hacc
    next hA =>
      split at hacc
      next hF =>
        split
        next => exact hacc
        next => exact hacc
      next => cases hacc

/-- The phrase-level amenity hit set is antitone in the margin threshold. -/
lemma amenHits_antitone (ctx : AmenCtx) (qtok : Finset String) (th_abs : ℚ)
    {tm tm' : ℚ} (hmm : tm ≤ tm') (phrases : List Phrase) :
    amenHits ctx qtok th_abs tm' phrases ⊆ amenHits ctx qtok th_abs tm phrases := by
  intro c hc
  rw [amenHits, List.mem_toFinset, List.mem_filterMap] at hc ⊢
  obtain ⟨p, hp, hacc⟩ := hc
  exact ⟨p, hp, amenAccept_mono ctx qtok th_abs hmm p hacc⟩

lemma foldl_pick_choice (xs : List String) (acc : String) :
    xs.foldl (fun b a => if prefKeyLt a b then a else b) acc = acc
    ∨ xs.foldl (fun b a => if prefKeyLt a b then a else b) acc ∈ xs := by
  induction xs generalizing acc with
  | nil => exact Or.inl rfl
  | cons x xs ih =>
    have hstep : (x :: xs).foldl (fun b a => if prefKeyLt a b then a else b) acc
        = xs.foldl (fun b a => if prefKeyLt a b then a else b)
            (if prefKeyLt x acc then x else acc) := rfl
    rw [hstep]
    by_cases hx : prefKeyLt x acc = true
    · rw [if_pos hx]
      rcases ih x with h | h
      · rw [h]
        exact Or.inr (List.mem_cons_self x xs)
      · exact Or.inr (List.mem_cons_of_mem x h)
    · rw [if_neg hx]
      rcases ih acc with h | h
      · exact Or.inl h
      · exact Or.inr (List.mem_cons_of_mem x h)

lemma pickPref_mem (l : List String) (h : l ≠ []) : pickPref l ∈ l := by
  cases l with
  | nil => exact absurd rfl h
  | cons x xs =>
    show xs.foldl (fun b a => if prefKeyLt a b then a else b) x ∈ x :: xs
    rcases foldl_pick_choice xs x with h2 | h2
    · rw [h2]
      exact List.mem_cons_self x xs
    · exact List.mem_cons_of_mem x h2

/-- The picked representative of each merge-key group belongs to the group
and carries its key. -/
lemma cleaned_pick_mem {STOP : Finset String} {merged : Finset String} {k : List String}
    (hk : k ∈ merged.image (label_merge_key STOP)) :
    pickPref ((merged.filter (fun l => label_merge_key STOP l = k)).sort dataLe)
      ∈ merged.filter (fun l => label_merge_key STOP l = k) := by
  obtain ⟨l, hl, hlk⟩ := Finset.mem_image.mp hk
  have hlf : l ∈ merged.filter (fun l => label_merge_key STOP l = k) :=
    Finset.mem_filter.mpr ⟨hl, hlk⟩
  have hcard : 0 < (merged.filter (fun l => label_merge_key STOP l = k)).card :=
    Finset.card_pos.mpr ⟨l, hlf⟩
  have hne : (merged.filter (fun l => label_merge_key STOP l = k)).sort dataLe ≠ [] := by
    intro h0
    have := Finset.length_sort (s := merged.filter (fun l => label_merge_key STOP l = k)) dataLe
    rw [h0] at this
    simp at this
    omega
  have := pickPref_mem _ hne
  rwa [Finset.mem_sort] at this

lemma cleanedSet_card (STOP : Finset String) (merged : Finset String) :
    (cleanedSet STOP merged).card = (merged.image (label_merge_key STOP)).card := by
  unfold cleanedSet
  apply Finset.card_image_of_injOn
  intro k1 h1 k2 h2 heq
  have e1 := (Finset.mem_filter.mp (cleaned_pick_mem (Finset.mem_coe.mp h1))).2
  have e2 := (Finset.mem_filter.mp (cleaned_pick_mem (Finset.mem_coe.mp h2))).2
  have heq2 : pickPref ((merged.filter (fun l => label_merge_key STOP l = k1)).sort dataLe)
      = pickPref ((merged.filter (fun l => label_merge_key STOP l = k2)).sort dataLe) := heq
  rw [← e1, heq2, e2]

lemma canonical_out_empty (ctx : AmenCtx) (query : String) (phrases : List Phrase)
    (th_abs tm : ℚ)
    (h : amenHits ctx (content_tokens ctx.STOP query) th_abs tm phrases = ∅) :
    canonical_amenities_from_query ctx query phrases th_abs tm = [] := by
  unfold canonical_amenities_from_query
  rw [if_pos h]

lemma canonical_out_length (ctx : AmenCtx) (query : String) (phrases : List Phrase)
    (th_abs tm : ℚ)
    (h : amenHits ctx (content_tokens ctx.STOP query) th_abs tm phrases ≠ ∅) :
    (canonical_amenities_from_query ctx query phrases th_abs tm).length
    = (((amenHits ctx (content_tokens ctx.STOP query) th_abs tm phrases).image
        ctx.CANON_MERGE).image (label_merge_key ctx.STOP)).card := by
  unfold canonical_amenities_from_query
  rw [if_neg h, List.length_mergeSort, Finset.length_sort, cleanedSet_card]

/-- Raising the margin can only lose a phrase-level type acceptance. -/
lemma typeAccept_mono (STOP qtok : Finset String) (labels_norm : List String)
    (TOKENS_MAP : String → Finset String) (th_abs : ℚ) {tm tm' : ℚ}
    (hmm : tm ≤ tm') (p : Phrase) {r : String × ℚ}
    (hacc : typeAccept STOP qtok labels_norm TOKENS_MAP th_abs tm' p = some r) :
    typeAccept STOP qtok labels_norm TOKENS_MAP th_abs tm p = some r := by
  unfold typeAccept at hacc ⊢
  split at hacc
  next => cases hacc
  next j m1 m2 hbt =>
    dsimp only at hacc ⊢
    split at hacc
    next hA =>
      simp only [Bool.and_eq_true, decide_eq_true_eq, Bool.or_eq_true] at hA
      obtain ⟨⟨habs, hmargin⟩, hgate⟩ := hA
      have hA2 : (decide (th_abs ≤ m1)
          && (decide (m2 < 0) || decide (tm ≤ m1 - m2))
          && (!decide (content_tokens STOP p.raw ∩ TOKENS_MAP (labels_norm.getD j "") = ∅)
              || !decide (qtok ∩ TOKENS_MAP (labels_norm.getD j "") = ∅))) = true := by
        simp only [Bool.and_eq_true, decide_eq_true_eq, Bool.or_eq_true]
        refine ⟨⟨habs, ?_⟩, hgate⟩
        rcases hmargin with h | h
        · exact Or.inl h
        · exact Or.inr (by linarith)
      rw [if_pos hA2]
      exact hacc
    next => cases hacc

/-- The step function of `type_from_query_by_centroid`'s best-label fold. -/
def typeStep (STOP qtok : Finset String) (labels_norm : List String)
    (TOKENS_MAP : String → Finset String) (th_abs th_margin : ℚ)
    (best : Option String × ℚ) (p : Phrase) : Option String × ℚ :=
  match typeAccept STOP qtok labels_norm TOKENS_MAP th_abs th_margin p with
  | some (lbl, m1) => if best.2 < m1 then (some lbl, m1) else best
  | none => best

lemma type_from_query_eq_fold (STOP : Finset String) (query : String)
    (labels_norm : List String) (TOKENS_MAP : String → Finset String)
    (th_abs th_margin : ℚ) (phrases : List Phrase) :
    type_from_query_by_centroid STOP query labels_norm TOKENS_MAP th_abs th_margin phrases
    = (phrases.foldl
        (typeStep STOP (content_tokens STOP query) labels_norm TOKENS_MAP th_abs th_margin)
        (none, -1)).1 := rfl

lemma foldl_max_snd_init_mono {l : List (String × ℚ)} {a b : ℚ} (h : a ≤ b) :
    l.foldl (fun x r => max x r.2) a ≤ l.foldl (fun x r => max x r.2) b := by
  induction l generalizing a b with
  | nil => exact h
  | cons x xs ih => exact ih (max_le_max h le_rfl)

lemma foldl_max_snd_sublist {l' l : List (String × ℚ)} (h : l'.Sublist l) (a : ℚ) :
    l'.foldl (fun x r => max x r.2) a ≤ l.foldl (fun x r => max x r.2) a := by
  induction h generalizing a with
  | slnil => exact le_rfl
  | cons x hsub ih =>
    exact le_trans (ih a) (foldl_max_snd_init_mono (le_max_left a x.2))
  | cons₂ x hsub ih => exact ih (max a x.2)

lemma filterMap_sublist_of_imp {α β : Type} {f g : α → Option β} (l : List α)
    (h : ∀ a b, f a = some b → g a = some b) :
    (l.filterMap f).Sublist (l.filterMap g) := by
  induction l with
  | nil => exact List.Sublist.refl _
  | cons x xs ih =>
    rw [List.filterMap_cons, List.filterMap_cons]
    rcases hfx : f x with _ | b
    · rcases hgx : g x with _ | c
      · exact ih
      · exact ih.cons c
    · rw [h x b hfx]
      exact ih.cons₂ b

/-- The best-label fold keeps the invariant: the running best score is the
maximum of `-1` and the accepted scores seen so far, and a label is present
iff that maximum exceeds `-1`. -/
lemma type_fold_invariant (STOP qtok : Finset String) (labels_norm : List String)
    (TOKENS_MAP : String → Finset String) (th_abs th_margin : ℚ)
    (phrases : List Phrase) :
    ∀ st : Option String × ℚ,
      (st.1.isSome = true ↔ -1 < st.2) → -1 ≤ st.2 →
      (((phrases.foldl (typeStep STOP qtok labels_norm TOKENS_MAP th_abs th_margin) st).1.isSome = true
          ↔ -1 < (phrases.foldl (typeStep STOP qtok labels_norm TOKENS_MAP th_abs th_margin) st).2)
        ∧ -1 ≤ (phrases.foldl (typeStep STOP qtok labels_norm TOKENS_MAP th_abs th_margin) st).2
        ∧ (phrases.foldl (typeStep STOP qtok labels_norm TOKENS_MAP th_abs th_margin) st).2
          = (phrases.filterMap (typeAccept STOP qtok labels_norm TOKENS_MAP th_abs th_margin)).foldl
              (fun a r => max a r.2) st.2) := by
  induction phrases with
  | nil => intro st hinv hge; exact ⟨hinv, hge, rfl⟩
  | cons p ps ih =>
    intro st hinv hge
    rw [List.foldl_cons, List.filterMap_cons]
    rcases hacc : typeAccept STOP qtok labels_norm TOKENS_MAP th_abs th_margin p with _ | ⟨lbl, m1⟩
    · have hstep : typeStep STOP qtok labels_norm TOKENS_MAP th_abs th_margin st p = st := by
        unfold typeStep
        rw [hacc]
      rw [hstep]
      exact ih st hinv hge
    · have hstep : typeStep STOP qtok labels_norm TOKENS_MAP th_abs th_margin st p
          = if st.2 < m1 then (some lbl, m1) else st := by
        unfold typeStep
        rw [hacc]
      rw [hstep]
      by_cases hlt : st.2 < m1
      · rw [if_pos hlt]
        have h1 : ((some lbl : Option String), m1).1.isSome = true ↔ -1 < m1 := by
          simp only [Option.isSome_some, true_iff]
          linarith
        have h2 : -1 ≤ m1 := by linarith
        obtain ⟨ha, hb, hc⟩ := ih (some lbl, m1) h1 h2
        refine ⟨ha, hb, ?_⟩
        rw [hc]
        show _ = ((lbl, m1) :: ps.filterMap _).foldl (fun a r => max a r.2) st.2
        rw [List.foldl_cons]
        have : max st.2 m1 = m1 := max_eq_right (le_of_lt hlt)
        rw [this]
      · rw [if_neg hlt]
        obtain ⟨ha, hb, hc⟩ := ih st hinv hge
        refine ⟨ha, hb, ?_⟩
        rw [hc]
        show _ = ((lbl, m1) :: ps.filterMap _).foldl (fun a r => max a r.2) st.2
        rw [List.foldl_cons]
        have : max st.2 m1 = st.2 := max_eq_left (le_of_not_lt hlt)
        rw [this]

/-- Raising the margin never turns a `none` type-extraction into a `some`. -/
lemma type_isSome_mono (STOP : Finset String) (query : String)
    (labels_norm : List String) (TOKENS_MAP : String → Finset String)
    (th_abs : ℚ) {tm tm' : ℚ} (hmm : tm ≤ tm') (phrases : List Phrase)
    (h : (type_from_query_by_centroid STOP query labels_norm TOKENS_MAP th_abs tm'
        phrases).isSome = true) :
    (type_from_query_by_centroid STOP query labels_norm TOKENS_MAP th_abs tm
        phrases).isSome = true := by
  rw [type_from_query_eq_fold] at h ⊢
  have inv' := type_fold_invariant STOP (content_tokens STOP query) labels_norm
    TOKENS_MAP th_abs tm' phrases (none, -1) (by norm_num) le_rfl
  have inv := type_fold_invariant STOP (content_tokens STOP query) labels_norm
    TOKENS_MAP th_abs tm phrases (none, -1) (by norm_num) le_rfl
  rw [inv.1]
  have hlt : (-1 : ℚ) <
      (phrases.foldl (typeStep STOP (content_tokens STOP query) labels_norm
        TOKENS_MAP th_abs tm') (none, -1)).2 := (inv'.1).mp h
  rw [inv'.2.2] at hlt
  rw [inv.2.2]
  have hsub := filterMap_sublist_of_imp (g :=
      typeAccept STOP (content_tokens STOP query) labels_norm TOKENS_MAP th_abs tm)
    phrases
    (fun p r hr => typeAccept_mono STOP (content_tokens STOP query) labels_norm
      TOKENS_MAP th_abs hmm p hr)
  calc (-1 : ℚ) < _ := hlt
    _ ≤ _ := foldl_max_snd_sublist hsub (-1)

/-- **C7**.  For fixed inputs and embeddings, raising the margin threshold
never increases the accepted entity matches: the phrase-level amenity hit set
at the higher margin is contained in the one at the lower margin, the final
amenity list never grows longer, every phrase-level type acceptance at the
higher margin is also accepted (with the same label and score) at the lower
margin, and a type extraction that succeeds at the higher margin also
succeeds at the lower one. -/
theorem margin_monotonicity (ctx : AmenCtx) (query : String) (phrases : List Phrase)
    (th_abs : ℚ) (tm tm' : ℚ) (hmm : tm ≤ tm') :
    amenHits ctx (content_tokens ctx.STOP query) th_abs tm' phrases
      ⊆ amenHits ctx (content_tokens ctx.STOP query) th_abs tm phrases
    ∧ (canonical_amenities_from_query ctx query phrases th_abs tm').length
      ≤ (canonical_amenities_from_query ctx query phrases th_abs tm).length
    ∧ (∀ (STOP qt : Finset String) (labels : List String)
        (TM : String → Finset String) (ta : ℚ) (p : Phrase) (r : String × ℚ),
        typeAccept STOP qt labels TM ta tm' p = some r →
        typeAccept STOP qt labels TM ta tm p = some r)
    ∧ (∀ (STOP : Finset String) (q2 : String) (labels : List String)
        (TM : String → Finset String) (ta : ℚ) (phr : List Phrase),
        (type_from_query_by_centroid STOP q2 labels TM ta tm' phr).isSome = true →
        (type_from_query_by_centroid STOP q2 labels TM ta tm phr).isSome = true) := by
  refine ⟨amenHits_antitone ctx _ th_abs hmm phrases, ?_,
    fun STOP qt labels TM ta p r hr => typeAccept_mono STOP qt labels TM ta hmm p hr,
    fun STOP q2 labels TM ta phr h => type_isSome_mono STOP q2 labels TM ta hmm phr h⟩
  by_cases hemp : amenHits ctx (content_tokens ctx.STOP query) th_abs tm' phrases = ∅
  · rw [canonical_out_empty ctx query phrases th_abs tm' hemp]
    simp
  · have hsub := amenHits_antitone ctx (content_tokens ctx.STOP query) th_abs hmm phrases
    have hne : amenHits ctx (content_tokens ctx.STOP query) th_abs tm phrases ≠ ∅ := by
      intro h0
      exact hemp (Finset.subset_empty.mp (h0 ▸ hsub))
    rw [canonical_out_length ctx query phrases th_abs tm' hemp,
        canonical_out_length ctx query phrases th_abs tm hne]
    exact Finset.card_le_card (Finset.image_subset_image (Finset.image_subset_image hsub))

/-- Witness for C7: the amenity-list length is monotone at a concrete
context, query and margin pair `1 ≤ 2`. -/
theorem margin_monotonicity_witness :
    (canonical_amenities_from_query ⟨∅, ["wifi"], id⟩ "wifi please"
        [⟨"wifi", [4]⟩] 3 2).length
      ≤ (canonical_amenities_from_query ⟨∅, ["wifi"], id⟩ "wifi please"
        [⟨"wifi", [4]⟩] 3 1).length :=
  (margin_monotonicity ⟨∅, ["wifi"], id⟩ "wifi please" [⟨"wifi", [4]⟩] 3 1 2
    (by norm_num)).2.1
